import Mathlib

/-!
Verification of the TriangleTiling geometry engine (`TriangleTiling.py`).

The engine builds self-similar triangle tilings: `MultiTriangleTiling.__init__`
derives the triangle's angles and side ratios, `get_s` solves for the scaling
factor, `next_triangle`/`get_triangles` build one arm of the tiling, and
`get_all_triangles` replicates the arm rotationally.

The embedding below translates the numpy code into exact real arithmetic:
a numpy `(2,)` row becomes a pair of reals, a `(3,2)` triangle a record of
three rows, and a `(N,3,2)` arm a list of triangles.  Statements that the
spec phrases as "within floating-point tolerance" become exact equalities
over `ℝ`.  Fallible numpy indexing is modelled with `Except`.
-/

namespace TriangleTiling

noncomputable section

open Real

/-- A 2-D point, the `(x, y)` rows of the numpy arrays. -/
abbrev Pt := ℝ × ℝ

/-- A triangle, i.e. a numpy array of shape `(3, 2)`.  Row 0 is `point_c`
(the vertex P_C), row 1 is `point_b` (P_B), row 2 is `point_a` (P_A),
matching the `np.vstack([point_c, point_b, point_a])` order of
`get_triangles`. -/
structure Tri where
  p0 : Pt
  p1 : Pt
  p2 : Pt

/-- Apply a function to every row of a triangle (a vectorized numpy op). -/
def Tri.map (f : Pt → Pt) (t : Tri) : Tri :=
  ⟨f t.p0, f t.p1, f t.p2⟩

/-- `triangle - p`: numpy broadcast subtraction of a row from all rows. -/
def Tri.sub (t : Tri) (p : Pt) : Tri :=
  t.map (fun q => q - p)

/-- `triangle + p`: numpy broadcast addition of a row to all rows. -/
def Tri.add (t : Tri) (p : Pt) : Tri :=
  t.map (fun q => q + p)

/-- `triangle * s`: numpy scalar multiplication of every coordinate. -/
def Tri.smul (s : ℝ) (t : Tri) : Tri :=
  t.map (fun q => (s * q.1, s * q.2))

/-- `np.dot(rot_mat, point)` for the rotation matrix of `next_triangle`
(lines 99-101): `rot_mat = [[cos A, sin A], [-sin A, cos A]]`, that is a
clockwise rotation by `θ` in the standard orientation. -/
def rotPt (θ : ℝ) (p : Pt) : Pt :=
  (Real.cos θ * p.1 + Real.sin θ * p.2, -Real.sin θ * p.1 + Real.cos θ * p.2)

/-- `np.deg2rad`. -/
def deg2rad (x : ℝ) : ℝ := x * (π / 180)

/-- The instance attributes of `MultiTriangleTiling` consumed by
`next_triangle`, `get_triangles` and `get_all_triangles` (`self.A`,
`self.C`, `self.a`, `self.b`, `self.s`, `self.n`, `self.m`).  The unused
attributes `self.B` and `self.c` are omitted here; they appear in
`InitAngles` below, which embeds `__init__` itself.  `n` and `m` are the
`int(n)`, `int(m)` parameters, taken in `ℕ` (all claims concern
`n ≥ 1`, `m ≥ 1`). -/
structure Params where
  A : ℝ
  C : ℝ
  a : ℝ
  b : ℝ
  s : ℝ
  n : ℕ
  m : ℕ

/-- The first triangle of an arm (`get_triangles`, lines 151-156):
`point_c = [0, 0]`, `point_b = a * [cos C, sin C]`, `point_a = [b, 0]`. -/
def initialTri (P : Params) : Tri :=
  ⟨((0 : ℝ), (0 : ℝ)), (P.a * Real.cos P.C, P.a * Real.sin P.C), (P.b, (0 : ℝ))⟩

/-- Embeds `next_triangle` (lines 79-122), statement by statement.

`rot_shift = _next_triangle[0]` is a numpy *view* of row 0 of the working
copy.  `_next_triangle -= rot_shift` overlaps its output with that view;
numpy buffers the overlapping input, so every row has the original row 0
subtracted — and afterwards the view reads the updated row 0, which is now
`(0, 0)`.  Rotation and scaling fix the origin, so the later
`_next_triangle += rot_shift` adds the current row 0 (still `(0, 0)`): under
numpy's view semantics that statement is a no-op, which this definition
reproduces by re-reading row 0 (`nt3.p0`) at that point. -/
def nextTriangle (P : Params) (t : Tri) : Tri :=
  let nt1 := t.sub t.p0
  let nt2 := nt1.map (rotPt P.A)
  let nt3 := nt2.smul P.s
  let nt4 := nt3.add nt3.p0
  nt4.add (t.p1 - t.p0)

/-- The triangle sequence filled into `self.triangles` by `get_triangles`
(lines 159-169).  Iteration `i` stores triangle `i`, computes
`next_triangle`, and shifts it by `self.triangles[i-1, 1] -
self.triangles[0, 0]`.  For `i = 0` the numpy index `i - 1 = -1` wraps to
row `N-1`, which still holds the `np.zeros` initialization (for `N ≥ 2`),
so the shift read is the zero row; for `N = 1` the shifted triangle is
never stored, so the stored output is `armSeq` restricted to `[0, N)` for
every `N ≥ 1`.  `self.triangles[0, 0]` is `point_c = (0, 0)`, i.e.
`(initialTri P).p0`. -/
def armSeq (P : Params) : ℕ → Tri
  | 0 => initialTri P
  | 1 => (nextTriangle P (armSeq P 0)).add (((0 : ℝ), (0 : ℝ)) - (initialTri P).p0)
  | (i + 2) => (nextTriangle P (armSeq P (i + 1))).add ((armSeq P i).p1 - (initialTri P).p0)

/-- The contents of `self.triangles` after `get_triangles(N)`: an array of
shape `(N, 3, 2)` whose `i`-th entry is the `i`-th triangle of the arm. -/
def getTriangles (P : Params) (N : ℕ) : List Tri :=
  (List.range N).map (armSeq P)

/-- Euclidean distance between two vertex rows — the length of the side of
the triangle joining them. -/
def ptDist (p q : Pt) : ℝ :=
  Real.sqrt ((p.1 - q.1) ^ 2 + (p.2 - q.2) ^ 2)

/-- The numpy `IndexError` raised by an out-of-bounds basic index — the
only exception the tiling methods can raise.  (None of the exception
classes named by the spec — `DegenerateParameterError`,
`InvalidAngleError`, `NoValidScalingFactorError`,
`InsufficientSequenceLengthError` — exists anywhere in the source.) -/
inductive NpError
  | indexError

/-- A checked numpy row access `l[i]` for a nonnegative index `i`. -/
def npGet {α : Type} (l : List α) (i : ℕ) : Except NpError α :=
  match l[i]? with
  | some x => Except.ok x
  | none => Except.error NpError.indexError

/-- Arm `i` as stored in `self.all_triangles[i]` by `get_all_triangles`
(lines 190-230).  Arm 0 is the `get_triangles` output (line 197); for
`i ≥ 1` the loop body (lines 203-230) reads `rot_shift =
self.triangles[0, 2]` (an `IndexError` when `N = 0`), subtracts it from a
copy of arm 0, rotates every point clockwise by `theta = (2π/m)·i`
(lines 206-223), and adds the anchor `self.all_triangles[i-1, self.n-1, 1]`
(line 227) — an `IndexError` when `self.n - 1 ≥ N`.  The index `self.n - 1`
is taken in `ℕ`, which agrees with numpy for every `n ≥ 1` (the `n = 0`
numpy wrap-around to row `N-1` is outside every claim).  Statement order
matches the source: the `rot_shift` read precedes the anchor read. -/
def armRec (P : Params) (N : ℕ) : ℕ → Except NpError (List Tri)
  | 0 => Except.ok (getTriangles P N)
  | (i + 1) =>
      (armRec P N i).bind (fun prev =>
        (npGet (getTriangles P N) 0).bind (fun tri0 =>
          let θ := 2 * π / (P.m : ℝ) * ((i : ℝ) + 1)
          let rotated := (getTriangles P N).map (fun t => (t.sub tri0.p2).map (rotPt θ))
          (npGet prev (P.n - 1)).map (fun anchor =>
            rotated.map (fun t => t.add anchor.p1))))

/-- The value returned by `get_all_triangles(N)` (line 232): the list of
all `m` arms.  Any `IndexError` raised while building an arm propagates
and no value is returned.  (For `m = 0` the source would fail at the
`all_triangles[0] = ...` assignment; every claim has `m ≥ 1`.) -/
def getAllTriangles (P : Params) (N : ℕ) : Except NpError (List (List Tri)) :=
  (List.range P.m).mapM (armRec P N)

/-- The affine map applied to each triangle of arm 0 to obtain a later
arm: translate P_A of the first triangle (`sh`) to the origin, rotate
clockwise by `θ`, then translate to the anchor `c`. -/
def armTri (θ : ℝ) (sh c : Pt) (t : Tri) : Tri :=
  ((t.sub sh).map (rotPt θ)).add c

/-- Closed form of arm `i` of the assembled tiling (established in
`armRec_eq_armF` below). -/
def armF (P : Params) (N : ℕ) (θ : ℝ) (c : Pt) : List Tri :=
  (getTriangles P N).map (armTri θ (initialTri P).p2 c)

/-- The anchor sequence of the arms: `cseq 0` is P_A of the first
triangle, and `cseq (i+1)` — the anchor of arm `i+1`, i.e. the P_B vertex
of triangle `n-1` of arm `i` — adds the rotated closing vector of arm 0
to the previous anchor. -/
def cseq (P : Params) : ℕ → Pt
  | 0 => (initialTri P).p2
  | (i + 1) =>
      cseq P i +
        rotPt (2 * π / (P.m : ℝ) * (i : ℝ)) ((armSeq P (P.n - 1)).p1 - (initialTri P).p2)

/-- The offset from P_A of the first triangle to the tiling's center of
symmetry: the unique solution `w` of `rotPt θ w - w = q` when
`cos θ ≠ 1`. -/
def centerShift (θ : ℝ) (q : Pt) : Pt :=
  (((Real.cos θ - 1) * q.1 - Real.sin θ * q.2) / (2 - 2 * Real.cos θ),
    (Real.sin θ * q.1 + (Real.cos θ - 1) * q.2) / (2 - 2 * Real.cos θ))

/-- Rotation by `θ` (the program's clockwise convention) about the
center `O`. -/
def rotAbout (O : Pt) (θ : ℝ) (p : Pt) : Pt :=
  rotPt θ (p - O) + O

/-- The two numpy buffers live during `next_triangle`: the caller's array
`triangle` and the working copy `_next_triangle`. -/
structure NTBuf where
  arg : Tri
  nt : Tri

/-- `_next_triangle = triangle.copy()` (line 105): allocate the working
copy; the argument buffer holds the same rows. -/
def ntCopy (t : Tri) : NTBuf := ⟨t, t⟩

/-- `rot_shift = _next_triangle[0]; _next_triangle -= rot_shift`
(lines 106-107): numpy buffers the overlapping view, so every row of the
copy has its original row 0 subtracted.  The argument buffer is only
read. -/
def ntTranslate (b : NTBuf) : NTBuf := ⟨b.arg, b.nt.sub b.nt.p0⟩

/-- The rotation loop (lines 111-112), writing each row of the copy. -/
def ntRotate (A : ℝ) (b : NTBuf) : NTBuf := ⟨b.arg, b.nt.map (rotPt A)⟩

/-- `_next_triangle *= self.s` (line 115). -/
def ntScale (s : ℝ) (b : NTBuf) : NTBuf := ⟨b.arg, b.nt.smul s⟩

/-- `_next_triangle += rot_shift` (line 119): the view `rot_shift` now
reads the copy's current row 0. -/
def ntShiftBack (b : NTBuf) : NTBuf := ⟨b.arg, b.nt.add b.nt.p0⟩

/-- `_next_triangle += (triangle[1] - triangle[0])` (line 120): reads the
argument buffer, writes the copy. -/
def ntShiftToB (b : NTBuf) : NTBuf := ⟨b.arg, b.nt.add (b.arg.p1 - b.arg.p0)⟩

/-- The statement-level run of `next_triangle` over both buffers. -/
def nextTriangleRun (P : Params) (t : Tri) : NTBuf :=
  ntShiftToB (ntShiftBack (ntScale P.s (ntRotate P.A (ntTranslate (ntCopy t)))))

/-- The mutable attributes of a `MultiTriangleTiling` instance touched by
the two sequence-building methods (`self.N`, `self.triangles`,
`self.all_triangles`), each `none` until its method has run. -/
structure MState where
  P : Params
  Nstored : Option ℕ
  triangles : Option (List Tri)
  all_triangles : Option (List (List Tri))

/-- The method `get_triangles` at the state/return level: it stores
`self.N` (line 144) and `self.triangles` (lines 148-169) and has no
`return` statement, so its Python return value is `None` (the second
component). -/
def getTrianglesMeth (st : MState) (N : ℕ) : MState × Option (List Tri) :=
  (⟨st.P, some N, some (getTriangles st.P N), st.all_triangles⟩, none)

/-- The method `get_all_triangles` at the state/return level: it calls
`get_triangles` (line 192), fills `self.all_triangles`, and ends with
`return self.all_triangles` (line 232).  On an `IndexError` the exception
propagates and no value is returned. -/
def getAllTrianglesMeth (st : MState) (N : ℕ) :
    Except NpError (MState × List (List Tri)) :=
  match getAllTriangles st.P N with
  | Except.ok arms =>
      Except.ok (⟨st.P, some N, some (getTriangles st.P N), some arms⟩, arms)
  | Except.error e => Except.error e

/-- Embeds the root condition of `get_s` (lines 62-75): the sympy symbol
`_s` is declared `real = True, positive = True`, so
`solve(self.a * _s ** self.n + self.b * _s - 1, _s)` returns exactly the
positive real solutions of `a·s^n + b·s − 1 = 0`.  `self.s` is set to
`float(s[0])` — the first returned root, with no check that it lies in
`(0, 1)` and no uniqueness check; when the set below is a singleton, that
stored value is its unique element. -/
def scalingRoot (a b : ℝ) (n : ℕ) (s : ℝ) : Prop :=
  0 < s ∧ a * s ^ n + b * s - 1 = 0

/-- The attributes assigned by `MultiTriangleTiling.__init__` (lines 41-55)
before the `get_s` call: `n`, `m`, the three angles (radians) and the three
side ratios. -/
structure InitAngles where
  n : ℕ
  m : ℕ
  C : ℝ
  A : ℝ
  B : ℝ
  a : ℝ
  b : ℝ
  c : ℝ

/-- Embeds `__init__` (lines 41-58) up to the `get_s` call.  The source has
no guard on `n`: the angle formula `A = (2π/m − π + C)/(n − 1)` is
evaluated for every `n`, including `n = 1`, where the denominator is zero
(numpy emits a runtime warning and produces a non-finite float; real
division by zero in this model yields `0` — no claim below relies on the
value of `A` at `n = 1`).  No exception class named
`DegenerateParameterError` exists anywhere in the source. -/
def initGeneral (Cdeg : ℝ) (n m : ℕ) : InitAngles :=
  let C := deg2rad Cdeg
  let A := (2 * π / (m : ℝ) - π + C) / ((n : ℝ) - 1)
  let B := π - (A + C)
  ⟨n, m, C, A, B, Real.sin A / Real.sin C, Real.sin B / Real.sin C, 1⟩

/-- Row 0 of `nextTriangle`: since the working copy's row 0 is translated
to the origin and rotation/scaling fix the origin, the new P_C lands at
`t.p1 - t.p0`. -/
lemma nextTriangle_p0 (P : Params) (t : Tri) :
    (nextTriangle P t).p0 = t.p1 - t.p0 := by
  simp only [nextTriangle, Tri.sub, Tri.add, Tri.smul, Tri.map]
  ext <;> simp [rotPt]

/-- P_C of the first triangle of every arm is the origin. -/
lemma initialTri_p0 (P : Params) : (initialTri P).p0 = ((0 : ℝ), (0 : ℝ)) := rfl

/-- Unfolding equation for `armSeq` at `1`. -/
lemma armSeq_one (P : Params) :
    armSeq P 1 = (nextTriangle P (initialTri P)).add (((0 : ℝ), (0 : ℝ)) - (initialTri P).p0) := by
  simp [armSeq]

/-- Unfolding equation for `armSeq` at `i + 2`. -/
lemma armSeq_two (P : Params) (i : ℕ) :
    armSeq P (i + 2) =
      (nextTriangle P (armSeq P (i + 1))).add ((armSeq P i).p1 - (initialTri P).p0) := by
  rw [armSeq]

/-- The edge-matching invariant along one arm: the P_C vertex of triangle
`i+1` is exactly the P_B vertex of triangle `i`. -/
lemma armSeq_p0_succ (P : Params) : ∀ i, (armSeq P (i + 1)).p0 = (armSeq P i).p1 := by
  intro i
  induction i with
  | zero =>
      rw [armSeq_one]
      simp only [Tri.add, Tri.map, nextTriangle_p0, initialTri_p0, armSeq]
      rw [Prod.mk_zero_zero]
      abel
  | succ j ih =>
      rw [armSeq_two]
      simp only [Tri.add, Tri.map, nextTriangle_p0, initialTri_p0]
      rw [ih, Prod.mk_zero_zero]
      abel

/-- Entry `i` of the stored arm, for `i < N`. -/
lemma getTriangles_get (P : Params) (N i : ℕ) (h : i < N) :
    (getTriangles P N)[i]? = some (armSeq P i) := by
  simp [getTriangles, List.getElem?_map, List.getElem?_range h]

/-- C1: for every parameter set and every arm of length `N ≥ 2` produced by
`get_triangles`, each consecutive pair of triangles satisfies the
edge-matching invariant: triangle `i+1`'s P_C vertex coincides (exactly,
in real arithmetic) with triangle `i`'s P_B vertex. -/
theorem c1_edge_matching (P : Params) (N i : ℕ) (h : i + 1 < N) :
    ∃ t u, (getTriangles P N)[i]? = some t ∧
      (getTriangles P N)[i + 1]? = some u ∧ u.p0 = t.p1 := by
  refine ⟨armSeq P i, armSeq P (i + 1), ?_, ?_, ?_⟩
  · exact getTriangles_get P N i (Nat.lt_of_succ_lt h)
  · exact getTriangles_get P N (i + 1) h
  · exact armSeq_p0_succ P i

/-- Witness for C1 at the concrete parameters `A = 0`, `C = 0`, `a = 1`,
`b = 1`, `s = 1`, `n = 1`, `m = 2` and arm length `N = 2`. -/
theorem c1_edge_matching_witness :
    ∃ t u, (getTriangles ⟨0, 0, 1, 1, 1, 1, 2⟩ 2)[0]? = some t ∧
      (getTriangles ⟨0, 0, 1, 1, 1, 1, 2⟩ 2)[1]? = some u ∧ u.p0 = t.p1 :=
  c1_edge_matching ⟨0, 0, 1, 1, 1, 1, 2⟩ 2 0 (by decide)

/-- Any positive real root of `a·s^n + b·s − 1` lies in `(0, 1)` once the
side ratios are positive and satisfy the triangle inequality `a + b > 1`
(with `c = 1`). -/
lemma scalingRoot_mem_unit (a b : ℝ) (n : ℕ) (ha : 0 < a) (hb : 0 < b)
    (hab : 1 < a + b) (s : ℝ) (hs : scalingRoot a b n s) : 0 < s ∧ s < 1 := by
  obtain ⟨hpos, heq⟩ := hs
  refine ⟨hpos, ?_⟩
  by_contra hle
  push_neg at hle
  have hpow : (1 : ℝ) ≤ s ^ n := one_le_pow₀ hle
  have h1 : a ≤ a * s ^ n := by nlinarith
  have h2 : b ≤ b * s := by nlinarith
  linarith

/-- For a genuine triangle, the Law-of-Sines side ratios computed by
`__init__` satisfy `a + b > 1`: the triangle inequality, derived from
`sin A + sin B > sin (A + B)` and `C = π − (A + B)`. -/
lemma sides_sum_gt_one (A B C : ℝ) (hA : 0 < A) (hB : 0 < B) (hC : 0 < C)
    (hsum : A + B + C = π) :
    0 < Real.sin A / Real.sin C ∧ 0 < Real.sin B / Real.sin C ∧
      1 < Real.sin A / Real.sin C + Real.sin B / Real.sin C := by
  have hAπ : A < π := by linarith
  have hBπ : B < π := by linarith
  have hCπ : C < π := by linarith
  have hsA : 0 < Real.sin A := Real.sin_pos_of_pos_of_lt_pi hA hAπ
  have hsB : 0 < Real.sin B := Real.sin_pos_of_pos_of_lt_pi hB hBπ
  have hsC : 0 < Real.sin C := Real.sin_pos_of_pos_of_lt_pi hC hCπ
  have hCval : C = π - (A + B) := by linarith
  have hsinC : Real.sin C = Real.sin A * Real.cos B + Real.cos A * Real.sin B := by
    rw [hCval, Real.sin_pi_sub, Real.sin_add]
  have hcB : Real.cos B < 1 := by
    have := Real.cos_lt_cos_of_nonneg_of_le_pi (le_refl 0) hBπ.le hB
    simpa using this
  have hcA : Real.cos A ≤ 1 := Real.cos_le_one A
  have hlt : Real.sin C < Real.sin A + Real.sin B := by
    nlinarith [mul_pos hsA (sub_pos.2 hcB), mul_nonneg hsB.le (sub_nonneg.2 hcA)]
  refine ⟨div_pos hsA hsC, div_pos hsB hsC, ?_⟩
  rw [div_add_div_same, lt_div_iff₀ hsC]
  linarith

/-- C2: for valid triangle angles `A, B, C` (all positive, summing to π —
"a valid geometry exists"), every value the solver of `get_s` can store
(a positive real root of `a·s^n + b·s − 1` for the Law-of-Sines ratios
`a = sin A / sin C`, `b = sin B / sin C`) satisfies the polynomial exactly
and lies strictly in `(0, 1)`. -/
theorem c2_scaling_factor (A B C : ℝ) (n : ℕ) (hA : 0 < A) (hB : 0 < B)
    (hC : 0 < C) (hsum : A + B + C = π) (s : ℝ)
    (hs : scalingRoot (Real.sin A / Real.sin C) (Real.sin B / Real.sin C) n s) :
    (Real.sin A / Real.sin C) * s ^ n + (Real.sin B / Real.sin C) * s - 1 = 0 ∧
      0 < s ∧ s < 1 := by
  obtain ⟨ha, hb, hab⟩ := sides_sum_gt_one A B C hA hB hC hsum
  exact ⟨hs.2, scalingRoot_mem_unit _ _ n ha hb hab s hs⟩

/-- Witness for C2 at the equilateral triangle `A = B = C = π/3` with
`n = 1` and the root `s = 1/2`. -/
theorem c2_scaling_factor_witness :
    (Real.sin (π / 3) / Real.sin (π / 3)) * (1 / 2 : ℝ) ^ 1 +
        (Real.sin (π / 3) / Real.sin (π / 3)) * (1 / 2) - 1 = 0 ∧
      0 < (1 / 2 : ℝ) ∧ (1 / 2 : ℝ) < 1 := by
  have hpos : 0 < Real.sin (π / 3) :=
    Real.sin_pos_of_pos_of_lt_pi (by positivity) (by linarith [Real.pi_pos])
  have hone : Real.sin (π / 3) / Real.sin (π / 3) = 1 := div_self (ne_of_gt hpos)
  exact c2_scaling_factor (π / 3) (π / 3) (π / 3) 1 (by positivity) (by positivity)
    (by positivity) (by ring) (1 / 2) (by rw [hone]; exact ⟨by norm_num, by norm_num⟩)

/-- C3 counterexample: at `a = b = 1/4`, `n = 1`, the positive-real root
set seen by `get_s` is exactly `{2}`; the code stores `float(roots[0]) = 2`
— a root lying outside `(0, 1)` — and raises nothing.  This refutes the
claim that the computation fails with `NoValidScalingFactorError` whenever
no root lies in `(0, 1)` and never returns a root outside `(0, 1)` (no
such exception class exists anywhere in the source). -/
theorem c3_counterexample :
    scalingRoot (1 / 4) (1 / 4) 1 2 ∧
      (∀ r, scalingRoot (1 / 4) (1 / 4) 1 r → r = 2) ∧
      ¬((0 : ℝ) < 2 ∧ (2 : ℝ) < 1) := by
  refine ⟨⟨by norm_num, by norm_num⟩, ?_, by norm_num⟩
  intro r hr
  obtain ⟨h1, h2⟩ := hr
  rw [pow_one] at h2
  linarith

/-- C3 amended: `get_s` restricts the solver to positive real roots and
stores the first one with no `(0, 1)` membership or uniqueness check.  In
particular, whenever `0 < a`, `0 < b` and `a + b < 1` (so that no root
lies in `(0, 1)`), for `n = 1` the positive-real root set is the singleton
`{1/(a+b)}`, a root strictly greater than `1`, and the code stores it
silently instead of failing. -/
theorem c3_amended (a b : ℝ) (ha : 0 < a) (hb : 0 < b) (hab : a + b < 1) :
    scalingRoot a b 1 (1 / (a + b)) ∧
      (∀ r, scalingRoot a b 1 r → r = 1 / (a + b)) ∧
      1 < 1 / (a + b) := by
  have hab0 : 0 < a + b := add_pos ha hb
  refine ⟨⟨by positivity, ?_⟩, ?_, ?_⟩
  · rw [pow_one]
    field_simp
  · intro r hr
    obtain ⟨h1, h2⟩ := hr
    rw [pow_one] at h2
    rw [eq_div_iff (ne_of_gt hab0)]
    linarith [h2]
  · rw [lt_div_iff₀ hab0]
    linarith

/-- Witness for the amended C3 at `a = b = 1/4`. -/
theorem c3_amended_witness :
    scalingRoot (1 / 4) (1 / 4) 1 (1 / ((1 / 4 : ℝ) + 1 / 4)) ∧
      (∀ r, scalingRoot (1 / 4) (1 / 4) 1 r → r = 1 / ((1 / 4 : ℝ) + 1 / 4)) ∧
      1 < 1 / ((1 / 4 : ℝ) + 1 / 4) :=
  c3_amended (1 / 4) (1 / 4) (by norm_num) (by norm_num) (by norm_num)

/-- C7 counterexample: calling the general-case constructor with `n = 1`
(here `C = 120°`, `m = 5`) does not fail — it stores `n`, the angle `C`,
applies the general-case angle formula with the zero denominator `1 − 1`,
and computes the side ratios from the resulting angles.  This refutes the
claim that construction fails with `DegenerateParameterError` with no
angles or side ratios produced. -/
theorem c7_counterexample :
    (initGeneral 120 1 5).n = 1 ∧
      (initGeneral 120 1 5).C = deg2rad 120 ∧
      (initGeneral 120 1 5).A = (2 * π / 5 - π + deg2rad 120) / ((1 : ℝ) - 1) ∧
      (initGeneral 120 1 5).b =
        Real.sin (initGeneral 120 1 5).B / Real.sin (initGeneral 120 1 5).C := by
  refine ⟨rfl, rfl, ?_, rfl⟩
  norm_num [initGeneral]

/-- C7 amended: the constructor performs no check on `n`.  For every input
it stores `n` and `C = deg2rad(Cdeg)` and applies the general-case angle
formula unconditionally; at `n = 1` the formula's denominator `(n − 1)` is
zero (numpy yields a non-finite float rather than raising), and the
remaining attributes are still computed from the resulting `A`.  No
`DegenerateParameterError` exists in the code. -/
theorem c7_amended (Cdeg : ℝ) (m : ℕ) :
    (initGeneral Cdeg 1 m).n = 1 ∧
      (initGeneral Cdeg 1 m).C = deg2rad Cdeg ∧
      (initGeneral Cdeg 1 m).A = (2 * π / (m : ℝ) - π + deg2rad Cdeg) / 0 ∧
      (initGeneral Cdeg 1 m).a =
        Real.sin ((initGeneral Cdeg 1 m).A) / Real.sin (deg2rad Cdeg) := by
  refine ⟨rfl, rfl, ?_, rfl⟩
  simp [initGeneral]

/-- C9: `next_triangle` does not mutate its argument.  Running the
statement-level model of the method, with both numpy buffers tracked, the
caller's `triangle` buffer is unchanged at exit (the six statements write
only the working copy allocated by `triangle.copy()`), and the returned
buffer is exactly `nextTriangle`, the functional form used throughout this
development. -/
theorem c9_no_mutation (P : Params) (t : Tri) :
    (nextTriangleRun P t).arg = t ∧ (nextTriangleRun P t).nt = nextTriangle P t :=
  ⟨rfl, rfl⟩

/-- C10: `get_triangles` returns `None` — its output is only the state it
stores in `self.triangles` (and `self.N`) — while `get_all_triangles`
returns exactly the assembled tiling, which it also stores in
`self.all_triangles`. -/
theorem c10_return_values (st : MState) (N : ℕ) :
    (getTrianglesMeth st N).2 = none ∧
      (getTrianglesMeth st N).1.triangles = some (getTriangles st.P N) ∧
      (getTrianglesMeth st N).1.Nstored = some N ∧
      Except.map Prod.snd (getAllTrianglesMeth st N) = getAllTriangles st.P N ∧
      Except.map (fun r => r.1.all_triangles) (getAllTrianglesMeth st N) =
        Except.map some (getAllTriangles st.P N) := by
  refine ⟨rfl, rfl, rfl, ?_, ?_⟩ <;>
    cases h : getAllTriangles st.P N <;> simp [getAllTrianglesMeth, h, Except.map]

/-- The three vertex differences of `(nextTriangle P t).add w` are the
`s`-scaled clockwise rotations of the differences of `t`; the broadcast
translations cancel. -/
lemma nextTriangle_add_diffs (P : Params) (t : Tri) (w : Pt) :
    (((nextTriangle P t).add w).p0 - ((nextTriangle P t).add w).p1 =
        (P.s * (rotPt P.A (t.p0 - t.p1)).1, P.s * (rotPt P.A (t.p0 - t.p1)).2)) ∧
      (((nextTriangle P t).add w).p1 - ((nextTriangle P t).add w).p2 =
        (P.s * (rotPt P.A (t.p1 - t.p2)).1, P.s * (rotPt P.A (t.p1 - t.p2)).2)) ∧
      (((nextTriangle P t).add w).p0 - ((nextTriangle P t).add w).p2 =
        (P.s * (rotPt P.A (t.p0 - t.p2)).1, P.s * (rotPt P.A (t.p0 - t.p2)).2)) := by
  refine ⟨?_, ?_, ?_⟩ <;>
    · ext <;>
        · simp only [nextTriangle, Tri.add, Tri.sub, Tri.smul, Tri.map, rotPt,
            Prod.fst_sub, Prod.snd_sub, Prod.fst_add, Prod.snd_add]
          ring

/-- Every `armSeq` step is a translate of `nextTriangle` of the previous
triangle. -/
lemma armSeq_succ_shape (P : Params) (i : ℕ) :
    ∃ w, armSeq P (i + 1) = (nextTriangle P (armSeq P i)).add w := by
  cases i with
  | zero => exact ⟨((0 : ℝ), (0 : ℝ)) - (initialTri P).p0, armSeq_one P⟩
  | succ j => exact ⟨(armSeq P j).p1 - (initialTri P).p0, armSeq_two P j⟩

/-- If two vertices differ by `s · R(u - v)` with `s ≥ 0`, their distance
is `s` times the distance of `u` and `v` (clockwise rotations are
isometries). -/
lemma ptDist_smul_rot (p q u v : Pt) (s θ : ℝ) (hs : 0 ≤ s)
    (h : p - q = (s * (rotPt θ (u - v)).1, s * (rotPt θ (u - v)).2)) :
    ptDist p q = s * ptDist u v := by
  have h1 : p.1 - q.1 = s * (rotPt θ (u - v)).1 := by rw [← Prod.fst_sub, h]
  have h2 : p.2 - q.2 = s * (rotPt θ (u - v)).2 := by rw [← Prod.snd_sub, h]
  rw [ptDist, h1, h2]
  have hrot : (rotPt θ (u - v)).1 ^ 2 + (rotPt θ (u - v)).2 ^ 2 =
      (u.1 - v.1) ^ 2 + (u.2 - v.2) ^ 2 := by
    simp only [rotPt, Prod.fst_sub, Prod.snd_sub]
    linear_combination ((u.1 - v.1) ^ 2 + (u.2 - v.2) ^ 2) * Real.sin_sq_add_cos_sq θ
  rw [show (s * (rotPt θ (u - v)).1) ^ 2 + (s * (rotPt θ (u - v)).2) ^ 2 =
      s ^ 2 * ((rotPt θ (u - v)).1 ^ 2 + (rotPt θ (u - v)).2 ^ 2) from by ring,
    hrot, Real.sqrt_mul (sq_nonneg s), Real.sqrt_sq hs, ptDist]

/-- C5: along an arm, every side length of triangle `i+1` is exactly `s`
times the corresponding side length of triangle `i` (the per-step
transform is a similarity with ratio `s`; the code's `s` is a positive
root, whence the hypothesis `0 ≤ s`). -/
theorem c5_side_scaling (P : Params) (hs : 0 ≤ P.s) (N i : ℕ) (h : i + 1 < N) :
    ∃ t u, (getTriangles P N)[i]? = some t ∧
      (getTriangles P N)[i + 1]? = some u ∧
      ptDist u.p0 u.p1 = P.s * ptDist t.p0 t.p1 ∧
      ptDist u.p1 u.p2 = P.s * ptDist t.p1 t.p2 ∧
      ptDist u.p0 u.p2 = P.s * ptDist t.p0 t.p2 := by
  refine ⟨armSeq P i, armSeq P (i + 1),
    getTriangles_get P N i (Nat.lt_of_succ_lt h), getTriangles_get P N (i + 1) h, ?_, ?_, ?_⟩ <;>
    · obtain ⟨w, hw⟩ := armSeq_succ_shape P i
      obtain ⟨d01, d12, d02⟩ := nextTriangle_add_diffs P (armSeq P i) w
      rw [hw]
      first
      | exact ptDist_smul_rot _ _ _ _ P.s P.A hs d01
      | exact ptDist_smul_rot _ _ _ _ P.s P.A hs d12
      | exact ptDist_smul_rot _ _ _ _ P.s P.A hs d02

/-- Witness for C5 at `A = 0`, `C = 0`, `a = 1`, `b = 1`, `s = 1`, `n = 1`,
`m = 2`, arm length `N = 2`, pair `(0, 1)`. -/
theorem c5_side_scaling_witness :
    ∃ t u, (getTriangles ⟨0, 0, 1, 1, 1, 1, 2⟩ 2)[0]? = some t ∧
      (getTriangles ⟨0, 0, 1, 1, 1, 1, 2⟩ 2)[1]? = some u ∧
      ptDist u.p0 u.p1 = (1 : ℝ) * ptDist t.p0 t.p1 ∧
      ptDist u.p1 u.p2 = (1 : ℝ) * ptDist t.p1 t.p2 ∧
      ptDist u.p0 u.p2 = (1 : ℝ) * ptDist t.p0 t.p2 :=
  c5_side_scaling ⟨0, 0, 1, 1, 1, 1, 2⟩ zero_le_one 2 0 (by decide)

/-- Rotation by angle `0` is the identity. -/
lemma rotPt_zero (p : Pt) : rotPt 0 p = p := by
  simp [rotPt]

/-- The rotation maps fix the origin. -/
lemma rotPt_zero_pt (θ : ℝ) : rotPt θ ((0 : ℝ), (0 : ℝ)) = ((0 : ℝ), (0 : ℝ)) := by
  simp [rotPt]

/-- Rotation by a full turn is the identity. -/
lemma rotPt_two_pi (p : Pt) : rotPt (2 * π) p = p := by
  simp [rotPt, Real.cos_two_pi, Real.sin_two_pi]

/-- Clockwise rotations compose by adding angles. -/
lemma rotPt_angle_add (x y : ℝ) (p : Pt) : rotPt (x + y) p = rotPt x (rotPt y p) := by
  simp only [rotPt, Real.cos_add, Real.sin_add]
  ext <;> ring

/-- Rotations are additive in the point. -/
lemma rotPt_add_pt (θ : ℝ) (p q : Pt) : rotPt θ (p + q) = rotPt θ p + rotPt θ q := by
  simp only [rotPt, Prod.fst_add, Prod.snd_add]
  ext <;> simp <;> ring

/-- Rotations respect differences of points. -/
lemma rotPt_sub_pt (θ : ℝ) (p q : Pt) : rotPt θ (p - q) = rotPt θ p - rotPt θ q := by
  simp only [rotPt, Prod.fst_sub, Prod.snd_sub]
  ext <;> simp <;> ring

/-- `Except.bind` on a success. -/
lemma ok_bind {α β : Type} (a : α) (f : α → Except NpError β) :
    (Except.ok a).bind f = f a := rfl

/-- `Except.map` on a success. -/
lemma ok_map {α β : Type} (a : α) (f : α → β) :
    (Except.ok a : Except NpError α).map f = Except.ok (f a) := rfl

/-- Checked access into the stored arm. -/
lemma npGet_getTriangles (P : Params) (N i : ℕ) (h : i < N) :
    npGet (getTriangles P N) i = Except.ok (armSeq P i) := by
  simp [npGet, getTriangles_get P N i h]

/-- Checked access into an arm in closed form. -/
lemma npGet_armF (P : Params) (N i : ℕ) (h : i < N) (θ : ℝ) (c : Pt) :
    npGet (armF P N θ c) i = Except.ok (armTri θ (initialTri P).p2 c (armSeq P i)) := by
  simp [npGet, armF, List.getElem?_map, getTriangles_get P N i h]

/-- P_B of a transformed triangle. -/
lemma armTri_p1 (θ : ℝ) (sh c : Pt) (t : Tri) :
    (armTri θ sh c t).p1 = rotPt θ (t.p1 - sh) + c := rfl

/-- P_A of a transformed triangle. -/
lemma armTri_p2 (θ : ℝ) (sh c : Pt) (t : Tri) :
    (armTri θ sh c t).p2 = rotPt θ (t.p2 - sh) + c := rfl

/-- With angle `0` and matching translations, the arm transform is the
identity, so the closed form of arm `0` is arm 0 itself. -/
lemma armF_zero (P : Params) (N : ℕ) :
    armF P N (2 * π / (P.m : ℝ) * ((0 : ℕ) : ℝ)) (cseq P 0) = getTriangles P N := by
  have h0 : 2 * π / (P.m : ℝ) * ((0 : ℕ) : ℝ) = 0 := by push_cast; ring
  rw [h0, armF]
  have hid : armTri 0 (initialTri P).p2 (cseq P 0) = id := by
    funext t
    rw [show cseq P 0 = (initialTri P).p2 from rfl]
    simp [armTri, Tri.sub, Tri.add, Tri.map, rotPt_zero, sub_add_cancel]
  rw [hid, List.map_id]

/-- Rotating arm 0 and translating it to an anchor is the map by the
corresponding arm transform. -/
lemma map_rot_add_eq_armF (P : Params) (N : ℕ) (θ : ℝ) (c : Pt) :
    ((getTriangles P N).map
        (fun t => Tri.map (rotPt θ) (t.sub (armSeq P 0).p2))).map
      (fun t => t.add c) = armF P N θ c := by
  rw [List.map_map, armF]
  have hfun : ((fun t => Tri.add t c) ∘
      (fun t => Tri.map (rotPt θ) (Tri.sub t (armSeq P 0).p2))) =
      armTri θ (initialTri P).p2 c := by
    funext t
    rfl
  rw [hfun]

/-- Closed form of every arm built by the loop of `get_all_triangles`:
arm `i` is arm 0 translated by `-P_A`, rotated clockwise by `(2π/m)·i`,
and translated to the anchor `cseq i`. -/
lemma armRec_eq_armF (P : Params) (N : ℕ) (hn : 1 ≤ P.n) (hN : P.n ≤ N) :
    ∀ i, armRec P N i =
      Except.ok (armF P N (2 * π / (P.m : ℝ) * (i : ℝ)) (cseq P i)) := by
  have hN1 : 0 < N := lt_of_lt_of_le hn hN
  have hn1 : P.n - 1 < N := by omega
  intro i
  induction i with
  | zero =>
      show Except.ok (getTriangles P N) = _
      rw [armF_zero]
  | succ j ih =>
      rw [armRec, ih]
      simp only [ok_bind, npGet_getTriangles P N 0 hN1,
        npGet_armF P N (P.n - 1) hn1, ok_map]
      have hanchor :
          (armTri (2 * π / (P.m : ℝ) * (j : ℝ)) (initialTri P).p2 (cseq P j)
              (armSeq P (P.n - 1))).p1 = cseq P (j + 1) := by
        rw [armTri_p1, cseq]
        exact add_comm _ _
      have hθ : 2 * π / (P.m : ℝ) * ((j : ℝ) + 1) =
          2 * π / (P.m : ℝ) * (((j + 1 : ℕ)) : ℝ) := by
        push_cast; ring
      rw [map_rot_add_eq_armF, hanchor, hθ]

/-- A `mapM` over `Except` whose steps all succeed returns the list of
results. -/
lemma mapM_ok {α β : Type} (f : α → Except NpError β) (v : α → β) :
    ∀ l : List α, (∀ x ∈ l, f x = Except.ok (v x)) → l.mapM f = Except.ok (l.map v) := by
  intro l
  induction l with
  | nil => intro _; rfl
  | cons a as ih =>
      intro h
      rw [List.mapM_cons, h a (by simp), ih (fun x hx => h x (by simp [hx]))]
      rfl

/-- Under the validity hypotheses, `get_all_triangles` succeeds and every
arm has the closed form. -/
lemma getAllTriangles_ok (P : Params) (N : ℕ) (hn : 1 ≤ P.n) (hN : P.n ≤ N) :
    getAllTriangles P N =
      Except.ok ((List.range P.m).map
        (fun (k : ℕ) => armF P N (2 * π / (P.m : ℝ) * (k : ℝ)) (cseq P k))) := by
  exact mapM_ok _ _ _ (fun i _ => armRec_eq_armF P N hn hN i)

/-- Entry `i < m` of the assembled arm list. -/
lemma arms_get (P : Params) (N i : ℕ) (h : i < P.m) :
    ((List.range P.m).map
        (fun (k : ℕ) => armF P N (2 * π / (P.m : ℝ) * (k : ℝ)) (cseq P k)))[i]? =
      some (armF P N (2 * π / (P.m : ℝ) * (i : ℝ)) (cseq P i)) := by
  simp [List.getElem?_map, List.getElem?_range h]

/-- Entry `i` of an arm in closed form, as a list access. -/
lemma armF_get (P : Params) (N i : ℕ) (h : i < N) (θ : ℝ) (c : Pt) :
    (armF P N θ c)[i]? = some (armTri θ (initialTri P).p2 c (armSeq P i)) := by
  simp [armF, List.getElem?_map, getTriangles_get P N i h]

/-- C4: for every assembled tiling with `N ≥ n ≥ 1` and `m ≥ 1` arms,
arm 0 is exactly the unrotated `get_triangles` output, and for `1 ≤ i < m`
the P_A vertex of triangle 0 of arm `i` coincides (exactly, in real
arithmetic) with the P_B vertex of triangle `n − 1` of arm `i − 1`. -/
theorem c4_arm_anchoring (P : Params) (N : ℕ) (hn : 1 ≤ P.n) (hN : P.n ≤ N)
    (hm : 1 ≤ P.m) :
    ∃ arms, getAllTriangles P N = Except.ok arms ∧
      arms[0]? = some (getTriangles P N) ∧
      ∀ i, 1 ≤ i → i < P.m →
        ∃ armI armP t u, arms[i]? = some armI ∧ arms[i - 1]? = some armP ∧
          armI[0]? = some t ∧ armP[P.n - 1]? = some u ∧ t.p2 = u.p1 := by
  have hN1 : 0 < N := lt_of_lt_of_le hn hN
  have hn1 : P.n - 1 < N := by omega
  refine ⟨_, getAllTriangles_ok P N hn hN, ?_, ?_⟩
  · rw [arms_get P N 0 (by omega), armF_zero]
  · intro i h1 h2
    obtain ⟨j, rfl⟩ : ∃ j, i = j + 1 := ⟨i - 1, by omega⟩
    refine ⟨armF P N (2 * π / (P.m : ℝ) * (((j + 1 : ℕ)) : ℝ)) (cseq P (j + 1)),
      armF P N (2 * π / (P.m : ℝ) * (j : ℝ)) (cseq P j),
      armTri (2 * π / (P.m : ℝ) * (((j + 1 : ℕ)) : ℝ)) (initialTri P).p2
        (cseq P (j + 1)) (armSeq P 0),
      armTri (2 * π / (P.m : ℝ) * (j : ℝ)) (initialTri P).p2 (cseq P j)
        (armSeq P (P.n - 1)),
      arms_get P N (j + 1) h2, ?_, armF_get P N 0 hN1 _ _,
      armF_get P N (P.n - 1) hn1 _ _, ?_⟩
    · simpa using arms_get P N j (by omega)
    · rw [armTri_p2, armTri_p1]
      have h0 : (armSeq P 0).p2 - (initialTri P).p2 = ((0 : ℝ), (0 : ℝ)) := by
        rw [show armSeq P 0 = initialTri P from rfl]
        rw [Prod.mk_zero_zero]
        exact sub_self _
      rw [h0, rotPt_zero_pt, Prod.mk_zero_zero, zero_add, cseq]
      exact add_comm _ _

/-- Witness for C4 at `A = 0`, `C = 0`, `a = 1`, `b = 1`, `s = 1`,
`n = 1`, `m = 2`, `N = 1`. -/
theorem c4_arm_anchoring_witness :
    ∃ arms, getAllTriangles ⟨0, 0, 1, 1, 1, 1, 2⟩ 1 = Except.ok arms ∧
      arms[0]? = some (getTriangles ⟨0, 0, 1, 1, 1, 1, 2⟩ 1) ∧
      ∀ i, 1 ≤ i → i < 2 →
        ∃ armI armP t u, arms[i]? = some armI ∧ arms[i - 1]? = some armP ∧
          armI[0]? = some t ∧ armP[0]? = some u ∧ t.p2 = u.p1 :=
  c4_arm_anchoring ⟨0, 0, 1, 1, 1, 1, 2⟩ 1 (by decide) (by decide) (by decide)

/-- When `N < n` (and `n ≥ 1`), building arm 1 hits an out-of-bounds
anchor access `all_triangles[0, n-1, 1]` (or, for `N = 0`, already the
`rot_shift` read `triangles[0, 2]`) and raises `IndexError`. -/
lemma armRec_one_err (P : Params) (N : ℕ) (hn : 1 ≤ P.n) (hN : N < P.n) :
    armRec P N 1 = Except.error NpError.indexError := by
  cases N with
  | zero => rfl
  | succ k =>
      rw [armRec]
      show (armRec P (k + 1) 0).bind _ = _
      rw [show armRec P (k + 1) 0 = Except.ok (getTriangles P (k + 1)) from rfl, ok_bind,
        npGet_getTriangles P (k + 1) 0 (Nat.succ_pos k), ok_bind]
      have hlen : (getTriangles P (k + 1)).length ≤ P.n - 1 := by
        simp only [getTriangles, List.length_map, List.length_range]
        omega
      have hnone : (getTriangles P (k + 1))[P.n - 1]? = none :=
        List.getElem?_eq_none hlen
      simp [npGet, hnone, Except.map]

/-- A `mapM` over `range m` with `m ≥ 2` whose step 0 succeeds and whose
step 1 raises propagates the error (the source loop raises at `i = 1` and
produces no return value). -/
lemma mapM_err {β : Type} (f : ℕ → Except NpError β) (m : ℕ) (hm : 2 ≤ m) (v : β)
    (h0 : f 0 = Except.ok v) (h1 : f 1 = Except.error NpError.indexError) :
    (List.range m).mapM f = Except.error NpError.indexError := by
  obtain ⟨k, rfl⟩ : ∃ k, m = k + 2 := ⟨m - 2, by omega⟩
  rw [List.range_succ_eq_map, List.range_succ_eq_map]
  simp only [List.map_cons, List.map_map]
  rw [← List.mapM'_eq_mapM, List.mapM'_cons, h0]
  show (Except.ok v).bind _ = _
  rw [ok_bind, List.mapM'_cons]
  rw [show Nat.succ 0 = 1 from rfl, h1]
  rfl

/-- C6 counterexample: at `n = 3`, `m = 5`, arm length `N = 2 < n`, the
assembler raises the numpy `IndexError` at the arm-1 anchor access — not
an `InsufficientSequenceLengthError`, a class that exists nowhere in the
source — while arm 0 (the `get_triangles` output) was built successfully
before the failure. -/
theorem c6_counterexample :
    getAllTriangles ⟨0, 0, 1, 1, 1, 3, 5⟩ 2 = Except.error NpError.indexError ∧
      armRec ⟨0, 0, 1, 1, 1, 3, 5⟩ 2 0 = Except.ok (getTriangles ⟨0, 0, 1, 1, 1, 3, 5⟩ 2) :=
  ⟨rfl, rfl⟩

/-- C6 amended: for every request with `N < n` (`n ≥ 1`, `m ≥ 2`), the
assembler fails — with the generic numpy `IndexError` raised at the arm-1
anchor lookup `all_triangles[0, n-1, 1]` during construction, not with a
dedicated `InsufficientSequenceLengthError` (which does not exist in the
code) — and arm 0 is built while no arm beyond arm 0 is produced. -/
theorem c6_amended (P : Params) (N : ℕ) (hn : 1 ≤ P.n) (hN : N < P.n)
    (hm : 2 ≤ P.m) :
    getAllTriangles P N = Except.error NpError.indexError ∧
      armRec P N 0 = Except.ok (getTriangles P N) :=
  ⟨mapM_err _ _ hm _ rfl (armRec_one_err P N hn hN), rfl⟩

/-- Witness for the amended C6 at `n = 3`, `m = 5`, `N = 2`. -/
theorem c6_amended_witness :
    getAllTriangles ⟨0, 0, 1, 1, 2, 3, 5⟩ 2 = Except.error NpError.indexError ∧
      armRec ⟨0, 0, 1, 1, 2, 3, 5⟩ 2 0 = Except.ok (getTriangles ⟨0, 0, 1, 1, 2, 3, 5⟩ 2) :=
  c6_amended ⟨0, 0, 1, 1, 2, 3, 5⟩ 2 (by decide) (by decide) (by decide)

/-- For `m ≥ 2` arms the rotation angle `2π/m` lies in `(0, π]`, so its
cosine is strictly below `1` and the center equation is solvable. -/
lemma cos_lt_one_of_arm (m : ℕ) (hm : 2 ≤ m) : Real.cos (2 * π / (m : ℝ)) < 1 := by
  have hπ := Real.pi_pos
  have hm0 : (0 : ℝ) < (m : ℝ) := by exact_mod_cast (show 0 < m by omega)
  have h2m : (2 : ℝ) ≤ (m : ℝ) := by exact_mod_cast hm
  have hθ0 : 0 < 2 * π / (m : ℝ) := by positivity
  have hθπ : 2 * π / (m : ℝ) ≤ π := by
    rw [div_le_iff₀ hm0]
    nlinarith
  have := Real.cos_lt_cos_of_nonneg_of_le_pi (le_refl 0) hθπ hθ0
  simpa using this

/-- `centerShift` solves the center equation: rotating it by `θ` moves it
by exactly `q`. -/
lemma rot_centerShift (θ : ℝ) (hc : Real.cos θ < 1) (q : Pt) :
    rotPt θ (centerShift θ q) - centerShift θ q = q := by
  have hD : (2 - 2 * Real.cos θ) ≠ 0 := ne_of_gt (by linarith)
  ext
  · simp only [rotPt, centerShift, Prod.fst_sub]
    field_simp
    linear_combination q.1 * Real.sin_sq_add_cos_sq θ
  · simp only [rotPt, centerShift, Prod.snd_sub]
    field_simp
    linear_combination (4 * (Real.cos θ - 1) ^ 2) * q.2 * Real.sin_sq_add_cos_sq θ

/-- The anchors wind around the center: anchor `i` is the rotation of
anchor `0` by `(2π/m)·i` about the center `O`. -/
lemma cseq_sub_center (P : Params) (w O : Pt) (hO : O = (initialTri P).p2 - w)
    (hw : rotPt (2 * π / (P.m : ℝ)) w - w =
      (armSeq P (P.n - 1)).p1 - (initialTri P).p2) :
    ∀ i, cseq P i - O = rotPt (2 * π / (P.m : ℝ) * (i : ℝ)) w := by
  intro i
  induction i with
  | zero =>
      rw [show 2 * π / (P.m : ℝ) * ((0 : ℕ) : ℝ) = 0 from by push_cast; ring,
        rotPt_zero, hO, show cseq P 0 = (initialTri P).p2 from rfl]
      abel
  | succ j ih =>
      rw [cseq]
      have h1 : cseq P j +
          rotPt (2 * π / (P.m : ℝ) * (j : ℝ))
            ((armSeq P (P.n - 1)).p1 - (initialTri P).p2) - O =
          rotPt (2 * π / (P.m : ℝ) * (j : ℝ)) w +
            rotPt (2 * π / (P.m : ℝ) * (j : ℝ))
              ((armSeq P (P.n - 1)).p1 - (initialTri P).p2) := by
        rw [← ih]; abel
      rw [h1, ← rotPt_add_pt,
        show w + ((armSeq P (P.n - 1)).p1 - (initialTri P).p2) =
          rotPt (2 * π / (P.m : ℝ)) w from by rw [← hw]; abel,
        ← rotPt_angle_add,
        show 2 * π / (P.m : ℝ) * ((j : ℕ) : ℝ) + 2 * π / (P.m : ℝ) =
          2 * π / (P.m : ℝ) * (((j + 1 : ℕ)) : ℝ) from by push_cast; ring]

/-- One step of the symmetry: rotating a point of arm `j` about the center
by `θ` produces the corresponding point of arm `j+1`. -/
lemma rotAbout_point_step (θ φ : ℝ) (w O c q : Pt) (hd : c - O = rotPt φ w)
    (hw : rotPt θ w - w = q) (x : Pt) :
    rotAbout O θ (rotPt φ x + c) = rotPt (θ + φ) x + (c + rotPt φ q) := by
  rw [rotAbout]
  have h1 : rotPt φ x + c - O = rotPt φ x + rotPt φ w := by rw [← hd]; abel
  rw [h1, rotPt_add_pt, ← rotPt_angle_add]
  have h2 : rotPt θ (rotPt φ w) = rotPt φ w + rotPt φ q := by
    rw [← rotPt_angle_add, add_comm θ φ, rotPt_angle_add,
      show rotPt θ w = w + q from by rw [← hw]; abel, rotPt_add_pt]
  rw [h2, ← hd]
  abel

/-- A triangle's arm transform, viewed as one map on rows. -/
lemma armTri_as_map (φ : ℝ) (sh c : Pt) (t : Tri) :
    armTri φ sh c t = Tri.map (fun p => rotPt φ (p - sh) + c) t := rfl

/-- Two row maps that agree pointwise act identically on triangles. -/
lemma triMap_congr (f g : Pt → Pt) (t : Tri) (h : ∀ p, f p = g p) :
    Tri.map f t = Tri.map g t := by
  rw [funext h]

/-- Rotating every vertex of arm `j` (in closed form) about the center
yields arm `j+1` (in closed form). -/
lemma armF_rot_step (P : Params) (N : ℕ) (w O : Pt)
    (hw : rotPt (2 * π / (P.m : ℝ)) w - w =
      (armSeq P (P.n - 1)).p1 - (initialTri P).p2)
    (hO : O = (initialTri P).p2 - w) (j : ℕ) :
    (armF P N (2 * π / (P.m : ℝ) * (j : ℝ)) (cseq P j)).map
        (Tri.map (rotAbout O (2 * π / (P.m : ℝ)))) =
      armF P N (2 * π / (P.m : ℝ) * (((j + 1 : ℕ)) : ℝ)) (cseq P (j + 1)) := by
  have hd := cseq_sub_center P w O hO hw j
  rw [armF, armF, List.map_map]
  have hfun : (Tri.map (rotAbout O (2 * π / (P.m : ℝ)))) ∘
      (armTri (2 * π / (P.m : ℝ) * (j : ℝ)) (initialTri P).p2 (cseq P j)) =
      armTri (2 * π / (P.m : ℝ) * (((j + 1 : ℕ)) : ℝ)) (initialTri P).p2
        (cseq P (j + 1)) := by
    funext t
    show Tri.map (rotAbout O (2 * π / (P.m : ℝ)))
        (armTri (2 * π / (P.m : ℝ) * (j : ℝ)) (initialTri P).p2 (cseq P j) t) = _
    rw [armTri_as_map, armTri_as_map,
      show Tri.map (rotAbout O (2 * π / (P.m : ℝ)))
          (Tri.map (fun p => rotPt (2 * π / (P.m : ℝ) * (j : ℝ))
            (p - (initialTri P).p2) + cseq P j) t) =
        Tri.map (fun p => rotAbout O (2 * π / (P.m : ℝ))
          (rotPt (2 * π / (P.m : ℝ) * (j : ℝ))
            (p - (initialTri P).p2) + cseq P j)) t from rfl]
    refine triMap_congr _ _ t (fun p => ?_)
    rw [rotAbout_point_step (2 * π / (P.m : ℝ)) (2 * π / (P.m : ℝ) * (j : ℝ)) w O
      (cseq P j) ((armSeq P (P.n - 1)).p1 - (initialTri P).p2) hd hw,
      show 2 * π / (P.m : ℝ) + 2 * π / (P.m : ℝ) * (j : ℝ) =
        2 * π / (P.m : ℝ) * (((j + 1 : ℕ)) : ℝ) from by push_cast; ring]
    rfl
  rw [hfun]

/-- A full turn of `m` steps returns an arm to the angle of arm 0. -/
lemma armF_full_turn (P : Params) (N : ℕ) (hm0 : (P.m : ℝ) ≠ 0) (c : Pt) :
    armF P N (2 * π / (P.m : ℝ) * ((P.m : ℕ) : ℝ)) c =
      armF P N (2 * π / (P.m : ℝ) * ((0 : ℕ) : ℝ)) c := by
  have hful : 2 * π / (P.m : ℝ) * ((P.m : ℕ) : ℝ) = 2 * π := by field_simp
  have h0 : 2 * π / (P.m : ℝ) * ((0 : ℕ) : ℝ) = 0 := by push_cast; ring
  rw [armF, armF, hful, h0]
  have hfun : armTri (2 * π) (initialTri P).p2 c = armTri 0 (initialTri P).p2 c := by
    funext t
    rw [armTri_as_map, armTri_as_map]
    exact triMap_congr _ _ t (fun p => by rw [rotPt_two_pi, rotPt_zero])
  rw [hfun]

/-- C8: every assembled tiling with `N ≥ n ≥ 1` and `m ≥ 2` arms has exact
`m`-fold rotational symmetry: there is a center `O` such that rotating
every vertex of every triangle of arm `i` by `2π/m` (the program's
clockwise convention) about `O` gives arm `(i+1) mod m` — i.e. the rotated
tiling is the original with the arms relabeled cyclically. -/
theorem c8_rotational_symmetry (P : Params) (N : ℕ) (hn : 1 ≤ P.n) (hN : P.n ≤ N)
    (hm : 2 ≤ P.m) :
    ∃ arms, getAllTriangles P N = Except.ok arms ∧
      ∃ O : Pt, ∀ i, i < P.m →
        arms[(i + 1) % P.m]? =
          (arms[i]?).map (List.map (Tri.map (rotAbout O (2 * π / (P.m : ℝ))))) := by
  have hm0 : (P.m : ℝ) ≠ 0 := Nat.cast_ne_zero.mpr (by omega)
  have hc : Real.cos (2 * π / (P.m : ℝ)) < 1 := cos_lt_one_of_arm P.m hm
  have hwq : rotPt (2 * π / (P.m : ℝ))
        (centerShift (2 * π / (P.m : ℝ))
          ((armSeq P (P.n - 1)).p1 - (initialTri P).p2)) -
      centerShift (2 * π / (P.m : ℝ))
        ((armSeq P (P.n - 1)).p1 - (initialTri P).p2) =
      (armSeq P (P.n - 1)).p1 - (initialTri P).p2 :=
    rot_centerShift _ hc _
  refine ⟨_, getAllTriangles_ok P N hn hN,
    (initialTri P).p2 - centerShift (2 * π / (P.m : ℝ))
      ((armSeq P (P.n - 1)).p1 - (initialTri P).p2), ?_⟩
  intro i hi
  have hd := cseq_sub_center P
    (centerShift (2 * π / (P.m : ℝ)) ((armSeq P (P.n - 1)).p1 - (initialTri P).p2))
    _ rfl hwq
  have hstep := armF_rot_step P N
    (centerShift (2 * π / (P.m : ℝ)) ((armSeq P (P.n - 1)).p1 - (initialTri P).p2))
    _ hwq rfl i
  rcases Nat.lt_or_ge (i + 1) P.m with hlt | hge
  · rw [Nat.mod_eq_of_lt hlt, arms_get P N (i + 1) hlt, arms_get P N i hi,
      Option.map_some']
    exact (congrArg some hstep).symm
  · have him : i + 1 = P.m := by omega
    rw [him] at hstep
    have hcm : cseq P P.m = cseq P 0 := by
      have h1 := hd P.m
      have h2 := hd 0
      rw [show 2 * π / (P.m : ℝ) * ((P.m : ℕ) : ℝ) = 2 * π from by field_simp,
        rotPt_two_pi] at h1
      rw [show 2 * π / (P.m : ℝ) * ((0 : ℕ) : ℝ) = 0 from by push_cast; ring,
        rotPt_zero] at h2
      exact sub_left_inj.mp (h1.trans h2.symm)
    rw [him, Nat.mod_self, arms_get P N 0 (by omega), arms_get P N i hi,
      Option.map_some', hstep, hcm, armF_full_turn P N hm0]

/-- Witness for C8 at `A = 0`, `C = 0`, `a = 1`, `b = 1`, `s = 1`, `n = 1`,
`m = 2`, `N = 1`. -/
theorem c8_rotational_symmetry_witness :
    ∃ arms, getAllTriangles ⟨0, 0, 1, 1, 1, 1, 2⟩ 1 = Except.ok arms ∧
      ∃ O : Pt, ∀ i, i < 2 →
        arms[(i + 1) % 2]? =
          (arms[i]?).map (List.map (Tri.map (rotAbout O (2 * π / ((2 : ℕ) : ℝ))))) :=
  c8_rotational_symmetry ⟨0, 0, 1, 1, 1, 1, 2⟩ 1 (by decide) (by decide) (by decide)

end

end TriangleTiling
